import Mathlib

/-
  Shallow embedding of `update_number.py`.

  Strings are modelled as lists of characters (`List Char`), so that
  byte-for-byte claims become list equalities.  File contents are explicit
  values; randomness (the weighted count draw and the `(hour, minute)`
  draws) is passed in as explicit parameters, as is the current date
  string produced by `datetime.now().strftime`.
-/

namespace UpdateNumber

/-- Python `str.strip()`: remove leading and trailing whitespace. -/
def stripChars (s : List Char) : List Char :=
  ((s.dropWhile Char.isWhitespace).reverse.dropWhile Char.isWhitespace).reverse

/-- Numeric value of a decimal digit character. -/
def charVal (c : Char) : Nat := c.toNat - 48

/-- The decimal digit character for a value below ten. -/
def digitChar : Nat → Char
  | 0 => '0'
  | 1 => '1'
  | 2 => '2'
  | 3 => '3'
  | 4 => '4'
  | 5 => '5'
  | 6 => '6'
  | 7 => '7'
  | 8 => '8'
  | 9 => '9'
  | _ => '!'

/-- Decimal rendering of a positive natural number, most significant digit
first.  The first argument is fuel bounding the recursion depth; callers
pass the number itself, which always suffices. -/
def natToCharsAux : Nat → Nat → List Char
  | 0, _ => []
  | _ + 1, 0 => []
  | fuel + 1, n + 1 =>
    natToCharsAux fuel ((n + 1) / 10) ++ [digitChar ((n + 1) % 10)]

/-- Python `str` applied to a non-negative integer: minimal decimal form. -/
def natToChars (n : Nat) : List Char :=
  if n = 0 then ['0'] else natToCharsAux n n

/-- Python `str` applied to an integer: a leading minus sign for negative
values, plain decimal digits otherwise. -/
def intToChars (n : Int) : List Char :=
  if n < 0 then '-' :: natToChars n.natAbs else natToChars n.natAbs

/-- Value of a most-significant-first list of decimal digit characters. -/
def natOfChars (ds : List Char) : Nat :=
  ds.foldl (fun acc c => 10 * acc + charVal c) 0

/-- Parse a nonempty all-digit character sequence; `none` otherwise. -/
def parseDigits : List Char → Option Nat
  | [] => none
  | c :: rest =>
    if (c :: rest).all Char.isDigit then some (natOfChars (c :: rest)) else none

theorem parseDigits_cons {c : Char} {rest : List Char} :
    parseDigits (c :: rest) =
      if (c :: rest).all Char.isDigit then some (natOfChars (c :: rest)) else none := rfl

/-- Sign-and-digit part of Python `int(...)`: an optional single `-` or
`+` sign followed by at least one decimal digit. -/
def parseIntCore : List Char → Option Int
  | [] => none
  | c :: rest =>
    if c = '-' then (parseDigits rest).map (fun n => -(n : Int))
    else if c = '+' then (parseDigits rest).map (fun n => (n : Int))
    else (parseDigits (c :: rest)).map (fun n => (n : Int))

/-- Python `int(...)` on a string: strip surrounding whitespace, accept an
optional single `-` or `+` sign followed by at least one decimal digit.
(Python additionally accepts underscore digit separators and non-ASCII
digits; the repository only ever stores plain ASCII decimals.) -/
def parseInt (s : List Char) : Option Int := parseIntCore (stripChars s)

theorem parseIntCore_cons {c : Char} {rest : List Char} :
    parseIntCore (c :: rest) =
      if c = '-' then (parseDigits rest).map (fun n => -(n : Int))
      else if c = '+' then (parseDigits rest).map (fun n => (n : Int))
      else (parseDigits (c :: rest)).map (fun n => (n : Int)) := rfl

/-- Failure modes of the update cycle. -/
inductive UpdateError
  | fileMissing
  | formatError
deriving DecidableEq

/-- `read_number`: open `number.txt` (it must exist) and parse
`int(f.read().strip())`.  A missing file raises FileNotFoundError, a
non-numeric content raises ValueError. -/
def read_number : Option (List Char) → Except UpdateError Int
  | none => Except.error UpdateError.fileMissing
  | some s =>
    match parseInt s with
    | none => Except.error UpdateError.formatError
    | some n => Except.ok n

/-- `write_number`: overwrite `number.txt` with `str(num)`. -/
def write_number (n : Int) : List Char := intToChars n

/-- `do_update`: read the current number and write back its successor.
The result is the final contents of `number.txt` together with the error,
if any, that aborted the run: when the read fails, the write is never
reached and the file keeps its previous contents. -/
def do_update (file : Option (List Char)) : Option (List Char) × Option UpdateError :=
  match read_number file with
  | Except.error e => (file, some e)
  | Except.ok current => (some (write_number (current + 1)), none)

/- Digit rendering facts. -/

theorem charVal_digitChar {d : Nat} (h : d < 10) : charVal (digitChar d) = d := by
  interval_cases d <;> decide

theorem isDigit_digitChar {d : Nat} (h : d < 10) : (digitChar d).isDigit = true := by
  interval_cases d <;> decide

theorem not_whitespace_digitChar {d : Nat} (h : d < 10) :
    (digitChar d).isWhitespace = false := by
  interval_cases d <;> decide

theorem natToCharsAux_digits {fuel n : Nat} :
    ∀ c ∈ natToCharsAux fuel n, c.isDigit = true := by
  induction fuel generalizing n with
  | zero => intro c hc; simp [natToCharsAux] at hc
  | succ fuel ih =>
    intro c hc
    match n with
    | 0 => simp [natToCharsAux] at hc
    | n + 1 =>
      simp only [natToCharsAux, List.mem_append, List.mem_singleton] at hc
      rcases hc with hc | hc
      · exact ih _ hc
      · subst hc; exact isDigit_digitChar (Nat.mod_lt _ (by omega))

theorem natToCharsAux_ne_nil {fuel n : Nat} (hn : 0 < n) (hf : n ≤ fuel) :
    natToCharsAux fuel n ≠ [] := by
  match fuel, n with
  | 0, n => omega
  | fuel + 1, 0 => omega
  | fuel + 1, n + 1 => simp [natToCharsAux]

theorem natOfChars_append_digit (l : List Char) (c : Char) :
    natOfChars (l ++ [c]) = 10 * natOfChars l + charVal c := by
  simp [natOfChars, List.foldl_append]

theorem natOfChars_natToCharsAux {fuel n : Nat} (hf : n ≤ fuel) :
    natOfChars (natToCharsAux fuel n) = n := by
  induction fuel generalizing n with
  | zero =>
    have : n = 0 := by omega
    subst this; simp [natToCharsAux, natOfChars]
  | succ fuel ih =>
    match n with
    | 0 => simp [natToCharsAux, natOfChars]
    | n + 1 =>
      have hq : (n + 1) / 10 ≤ fuel := by
        have := Nat.div_le_self (n + 1) 10
        have := Nat.div_lt_self (show 0 < n + 1 by omega) (show 1 < 10 by omega)
        omega
      rw [natToCharsAux, natOfChars_append_digit, ih hq,
        charVal_digitChar (Nat.mod_lt _ (by omega))]
      omega

theorem natOfChars_natToChars (n : Nat) : natOfChars (natToChars n) = n := by
  by_cases h : n = 0
  · subst h; decide
  · rw [natToChars, if_neg h]
    exact natOfChars_natToCharsAux (Nat.le_refl n)

theorem natToChars_digits {n : Nat} : ∀ c ∈ natToChars n, c.isDigit = true := by
  by_cases h : n = 0
  · subst h; decide
  · rw [natToChars, if_neg h]; exact natToCharsAux_digits

theorem natToChars_ne_nil (n : Nat) : natToChars n ≠ [] := by
  by_cases h : n = 0
  · subst h; decide
  · rw [natToChars, if_neg h]
    exact natToCharsAux_ne_nil (by omega) (Nat.le_refl n)

theorem isDigit_not_whitespace {c : Char} (h : c.isDigit = true) :
    c.isWhitespace = false := by
  by_contra hw
  have hw' : c.isWhitespace = true := by
    cases hx : c.isWhitespace
    · exact absurd hx hw
    · rfl
  have hcases : ((c = ' ' ∨ c = '\t') ∨ c = '\x0d') ∨ c = '\n' := by
    simpa [Char.isWhitespace, decide_eq_true_iff] using hw'
  rcases hcases with ((h1 | h1) | h1) | h1 <;> subst h1 <;> exact absurd h (by decide)

theorem dropWhile_eq_self_of_none {p : Char → Bool} {s : List Char}
    (h : ∀ c ∈ s, p c = false) : s.dropWhile p = s := by
  cases s with
  | nil => rfl
  | cons c rest =>
    rw [List.dropWhile_cons, h c (List.mem_cons_self _ _)]
    simp

theorem stripChars_eq_self {s : List Char}
    (h : ∀ c ∈ s, c.isWhitespace = false) : stripChars s = s := by
  unfold stripChars
  rw [dropWhile_eq_self_of_none h,
    dropWhile_eq_self_of_none (by intro c hc; exact h c (List.mem_reverse.mp hc)),
    List.reverse_reverse]

theorem stripChars_natToChars (n : Nat) : stripChars (natToChars n) = natToChars n :=
  stripChars_eq_self (fun c hc => isDigit_not_whitespace (natToChars_digits c hc))

theorem parseDigits_natToChars (n : Nat) : parseDigits (natToChars n) = some n := by
  obtain ⟨c, rest, hcr⟩ := List.exists_cons_of_ne_nil (natToChars_ne_nil n)
  rw [hcr, parseDigits_cons,
    if_pos (by rw [← hcr, List.all_eq_true]; exact fun x hx => natToChars_digits x hx),
    ← hcr, natOfChars_natToChars]

theorem head_natToChars_not_sign (n : Nat) {c : Char} {rest : List Char}
    (h : natToChars n = c :: rest) : c ≠ '-' ∧ c ≠ '+' := by
  have hd : c.isDigit = true := natToChars_digits c (by rw [h]; exact List.mem_cons_self _ _)
  constructor
  · intro hc; rw [hc] at hd; simp at hd
  · intro hc; rw [hc] at hd; simp at hd

theorem parseInt_natToChars (n : Nat) : parseInt (natToChars n) = some (n : Int) := by
  obtain ⟨c, rest, hcr⟩ := List.exists_cons_of_ne_nil (natToChars_ne_nil n)
  obtain ⟨hm, hp⟩ := head_natToChars_not_sign n hcr
  rw [parseInt, stripChars_natToChars, hcr, parseIntCore_cons, if_neg hm, if_neg hp,
    ← hcr, parseDigits_natToChars]
  rfl

/-- Round trip: the written decimal form of an integer parses back to it. -/
theorem parseInt_cons_digits {ds : List Char} (hne : ds ≠ [])
    (hdig : ∀ c ∈ ds, c.isDigit = true) :
    parseInt ('-' :: ds) = some (-((natOfChars ds : Nat) : Int)) ∧
    parseInt ('+' :: ds) = some ((natOfChars ds : Nat) : Int) := by
  obtain ⟨c, rest, hcr⟩ := List.exists_cons_of_ne_nil hne
  have hws : ∀ sign : Char, sign.isWhitespace = false →
      ∀ x ∈ sign :: ds, x.isWhitespace = false := by
    intro sign hs x hx
    rcases List.mem_cons.mp hx with hx | hx
    · subst hx; exact hs
    · exact isDigit_not_whitespace (hdig x hx)
  have hpd : parseDigits ds = some (natOfChars ds) := by
    rw [hcr, parseDigits_cons,
      if_pos (by rw [← hcr, List.all_eq_true]; exact fun x hx => hdig x hx), ← hcr]
  constructor
  · rw [parseInt, stripChars_eq_self (hws '-' (by decide)), parseIntCore_cons,
      if_pos rfl, hpd]
    rfl
  · rw [parseInt, stripChars_eq_self (hws '+' (by decide)), parseIntCore_cons,
      if_neg (by decide), if_pos rfl, hpd]
    rfl

theorem parseInt_intToChars (n : Int) : parseInt (intToChars n) = some n := by
  by_cases h : n < 0
  · rw [intToChars, if_pos h]
    have hws : ∀ c ∈ '-' :: natToChars n.natAbs, c.isWhitespace = false := by
      intro c hc
      rcases List.mem_cons.mp hc with hc | hc
      · subst hc; decide
      · exact isDigit_not_whitespace (natToChars_digits c hc)
    rw [parseInt, stripChars_eq_self hws, parseIntCore_cons, if_pos rfl,
      parseDigits_natToChars]
    show some (-((n.natAbs : Nat) : Int)) = some n
    congr 1
    omega
  · rw [intToChars, if_neg h]
    rw [parseInt_natToChars]
    congr 1
    omega

theorem read_number_of_parse {s : List Char} {n : Int} (h : parseInt s = some n) :
    read_number (some s) = Except.ok n := by
  show (match parseInt s with
    | none => Except.error UpdateError.formatError
    | some n => Except.ok n) = Except.ok n
  rw [h]

theorem read_number_of_parse_fail {s : List Char} (h : parseInt s = none) :
    read_number (some s) = Except.error UpdateError.formatError := by
  show (match parseInt s with
    | none => Except.error UpdateError.formatError
    | some n => Except.ok n) = Except.error UpdateError.formatError
  rw [h]

theorem do_update_of_parse {s : List Char} {n : Int} (h : parseInt s = some n) :
    do_update (some s) = (some (intToChars (n + 1)), none) := by
  unfold do_update
  rw [read_number_of_parse h]
  rfl

/-- C5: for every integer `N` stored in `number.txt`, one invocation of
`do_update` leaves the file holding exactly `N + 1`, and a second
invocation on the result yields `N + 2` (non-idempotent). -/
theorem c5_do_update_adds_one (s : List Char) (n : Int) (h : parseInt s = some n) :
    do_update (some s) = (some (intToChars (n + 1)), none) ∧
    do_update (some (intToChars (n + 1))) = (some (intToChars (n + 1 + 1)), none) :=
  ⟨do_update_of_parse h, do_update_of_parse (parseInt_intToChars (n + 1))⟩

/-- Witness for C5 at the concrete file contents `"41"`. -/
theorem c5_do_update_adds_one_witness :
    do_update (some ['4', '1']) = (some (intToChars (41 + 1)), none) ∧
    do_update (some (intToChars (41 + 1))) = (some (intToChars (41 + 1 + 1)), none) :=
  c5_do_update_adds_one ['4', '1'] 41 (by decide)

/-- C6: when `number.txt` holds text that does not parse as an integer,
`do_update` stops with a format error raised at the read step and the
file contents are unchanged. -/
theorem c6_do_update_format_error (s : List Char) (h : parseInt s = none) :
    do_update (some s) = (some s, some UpdateError.formatError) := by
  unfold do_update
  rw [read_number_of_parse_fail h]

/-- Witness for C6 at the concrete file contents `"abc"`. -/
theorem c6_do_update_format_error_witness :
    do_update (some ['a', 'b', 'c']) = (some ['a', 'b', 'c'], some UpdateError.formatError) :=
  c6_do_update_format_error ['a', 'b', 'c'] (by decide)

/-- C10: `read_number` accepts anything Python integer parsing accepts
after stripping, including explicitly signed values, and `do_update`
increments negative values like any other — no non-negativity check. -/
theorem c10_signed_values_accepted :
    (∀ ds : List Char, ds ≠ [] → (∀ c ∈ ds, c.isDigit = true) →
      read_number (some ('+' :: ds)) = Except.ok ((natOfChars ds : Nat) : Int) ∧
      read_number (some ('-' :: ds)) = Except.ok (-((natOfChars ds : Nat) : Int)) ∧
      do_update (some ('-' :: ds)) =
        (some (intToChars (-((natOfChars ds : Nat) : Int) + 1)), none)) ∧
    (∀ n : Int, n < 0 → do_update (some (intToChars n)) = (some (intToChars (n + 1)), none)) := by
  constructor
  · intro ds hne hdig
    obtain ⟨hneg, hpos⟩ := parseInt_cons_digits hne hdig
    exact ⟨read_number_of_parse hpos, read_number_of_parse hneg, do_update_of_parse hneg⟩
  · intro n _
    exact do_update_of_parse (parseInt_intToChars n)

/-- Witness for C10 at the contents `"+7"`, `"-7"` and the value `-5`. -/
theorem c10_signed_values_accepted_witness :
    (read_number (some ('+' :: ['7'])) = Except.ok ((natOfChars ['7'] : Nat) : Int) ∧
      read_number (some ('-' :: ['7'])) = Except.ok (-((natOfChars ['7'] : Nat) : Int)) ∧
      do_update (some ('-' :: ['7'])) =
        (some (intToChars (-((natOfChars ['7'] : Nat) : Int) + 1)), none)) ∧
    do_update (some (intToChars (-5))) = (some (intToChars (-5 + 1)), none) :=
  ⟨c10_signed_values_accepted.1 ['7'] (by decide) (by decide),
    c10_signed_values_accepted.2 (-5) (by decide)⟩

/- Git interaction: `generate_random_commit_message`, `git_commit`, `git_push`.
The LLM collaborator is abstracted as the text it returns; subprocess calls
are abstracted as the issued commands and their results. -/

/-- The bullet marker searched for in the generated text. -/
def bulletMarker : List Char := ['-', ' ']

/-- Whether `p` occurs at the start of `s`. -/
def startsWith : List Char → List Char → Bool
  | [], _ => true
  | _ :: _, [] => false
  | p :: ps, c :: cs => p == c && startsWith ps cs

/-- The text after the last occurrence of `pat` in `s`, or `none` when
`pat` (assumed nonempty) does not occur: this is the piece of
`text.rsplit(pat, 1)[-1]` behaviour that the script relies on. -/
def afterLast (pat : List Char) : List Char → Option (List Char)
  | [] => none
  | c :: rest =>
    match afterLast pat rest with
    | some r => some r
    | none =>
      if startsWith pat (c :: rest) then some ((c :: rest).drop pat.length) else none

/-- `generate_random_commit_message`, given the collaborator's generated
text: return the stripped text after the last `"- "` when present,
otherwise raise `ValueError(f"Unexpected generated text {text}")`. -/
def generate_random_commit_message (text : List Char) :
    Except (List Char) (List Char) :=
  match afterLast bulletMarker text with
  | some r => Except.ok (stripChars r)
  | none => Except.error (("Unexpected generated text ").toList ++ text)

/-- A git subprocess invocation issued by `git_commit`. -/
inductive GitCmd
  | add (file : List Char)
  | commit (msg : List Char)
deriving DecidableEq

/-- Zero-padded two-digit field of `strftime`. -/
def pad2 (n : Nat) : List Char := if n < 10 then '0' :: natToChars n else natToChars n

/-- Zero-padded four-digit field of `strftime`. -/
def pad4 (n : Nat) : List Char :=
  if n < 10 then '0' :: '0' :: '0' :: natToChars n
  else if n < 100 then '0' :: '0' :: natToChars n
  else if n < 1000 then '0' :: natToChars n
  else natToChars n

/-- `datetime.now():%Y-%m-%d`: today's date as `YYYY-MM-DD`. -/
def dateYMD (y m d : Nat) : List Char := pad4 y ++ ['-'] ++ pad2 m ++ ['-'] ++ pad2 d

/-- `git_commit`: stage `number.txt`, then commit with the LLM message when
the `FANCY_JOB_USE_LLM` environment toggle is set, else with the
date-stamped message.  Returns the git commands actually issued and, when
message generation raised, the propagated error (the commit never runs). -/
def git_commit (useLLM : Bool) (genText today : List Char) :
    List GitCmd × Option (List Char) :=
  let staged := [GitCmd.add ("number.txt").toList]
  if useLLM then
    match generate_random_commit_message genText with
    | Except.ok msg => (staged ++ [GitCmd.commit msg], none)
    | Except.error e => (staged, some e)
  else
    (staged ++ [GitCmd.commit (("Update number: ").toList ++ today)], none)

/-- Result of a subprocess invocation with captured output. -/
structure ProcResult where
  exitCode : Int
  procOut : List Char
  procErr : List Char
deriving DecidableEq

/-- `git_push`: run `git push`; on success print a success notice and the
current datetime, on failure print the captured error output.  Either way
the function simply returns its printed lines — a failed push never
raises. -/
def git_push (r : ProcResult) (nowLine : List Char) : List (List Char) :=
  if r.exitCode = 0 then [("Pushed successfully.").toList, nowLine]
  else [("Push error: ").toList ++ r.procErr]

/-- C7: a nonzero push exit code makes `git_push` print the error output
and return normally; it never raises and never aborts the run. -/
theorem c7_git_push_nonfatal (r : ProcResult) (nowLine : List Char)
    (h : r.exitCode ≠ 0) :
    git_push r nowLine = [("Push error: ").toList ++ r.procErr] := by
  rw [git_push, if_neg h]

/-- Witness for C7 at exit code 1 with error output `"x"`. -/
theorem c7_git_push_nonfatal_witness :
    git_push ⟨1, [], ['x']⟩ [] = [("Push error: ").toList ++ ['x']] :=
  c7_git_push_nonfatal ⟨1, [], ['x']⟩ [] (by decide)

theorem startsWith_iff : ∀ {p s : List Char}, startsWith p s = true ↔ ∃ t, p ++ t = s := by
  intro p
  induction p with
  | nil => intro s; simp [startsWith]
  | cons x ps ih =>
    intro s
    cases s with
    | nil => simp [startsWith]
    | cons c cs =>
      rw [startsWith]
      simp only [Bool.and_eq_true, beq_iff_eq, ih]
      constructor
      · rintro ⟨rfl, t, rfl⟩; exact ⟨t, rfl⟩
      · rintro ⟨t, ht⟩
        injection ht with h1 h2
        exact ⟨h1, t, h2⟩

theorem afterLast_cons {pat : List Char} {c : Char} {rest : List Char} :
    afterLast pat (c :: rest) =
      match afterLast pat rest with
      | some r => some r
      | none =>
        if startsWith pat (c :: rest) then some ((c :: rest).drop pat.length)
        else none := rfl

theorem afterLast_cons_cases (pat : List Char) (c : Char) (rest : List Char) :
    (∃ r0, afterLast pat rest = some r0 ∧ afterLast pat (c :: rest) = some r0) ∨
    (afterLast pat rest = none ∧ startsWith pat (c :: rest) = true ∧
      afterLast pat (c :: rest) = some ((c :: rest).drop pat.length)) ∨
    (afterLast pat rest = none ∧ startsWith pat (c :: rest) = false ∧
      afterLast pat (c :: rest) = none) := by
  cases h0 : afterLast pat rest with
  | some r0 =>
    exact Or.inl ⟨r0, rfl, by rw [afterLast_cons, h0]⟩
  | none =>
    cases hsw : startsWith pat (c :: rest) with
    | true =>
      refine Or.inr (Or.inl ⟨rfl, rfl, ?_⟩)
      rw [afterLast_cons, h0]
      show (if startsWith pat (c :: rest) = true then some ((c :: rest).drop pat.length)
        else none) = some ((c :: rest).drop pat.length)
      rw [if_pos hsw]
    | false =>
      refine Or.inr (Or.inr ⟨rfl, rfl, ?_⟩)
      rw [afterLast_cons, h0]
      show (if startsWith pat (c :: rest) = true then some ((c :: rest).drop pat.length)
        else none) = none
      rw [if_neg (by rw [hsw]; exact Bool.false_ne_true)]

theorem afterLast_eq_none_iff {pat : List Char} (hp : pat ≠ []) :
    ∀ {s : List Char}, afterLast pat s = none ↔ ¬ pat <:+: s := by
  intro s
  induction s with
  | nil => simp [afterLast, List.infix_nil, hp]
  | cons c rest ih =>
    rcases afterLast_cons_cases pat c rest with ⟨r0, h0, hc⟩ | ⟨h0, hsw, hc⟩ | ⟨h0, hsw, hc⟩
    · rw [hc]
      have hinf : pat <:+: rest := by
        by_contra hn
        rw [← ih, h0] at hn
        exact Option.some_ne_none r0 hn
      constructor
      · intro h; exact absurd h (Option.some_ne_none r0)
      · intro h; exact absurd (List.infix_cons_iff.mpr (Or.inr hinf)) h
    · rw [hc]
      constructor
      · intro h; exact absurd h (Option.some_ne_none _)
      · intro h
        exact absurd (List.infix_cons_iff.mpr (Or.inl (startsWith_iff.mp hsw))) h
    · rw [hc]
      constructor
      · intro _
        intro hinf
        rcases List.infix_cons_iff.mp hinf with hpre | hinf2
        · rw [startsWith_iff.mpr hpre] at hsw
          exact Bool.noConfusion hsw
        · exact (ih.mp h0) hinf2
      · intro _; rfl

theorem afterLast_suffix {pat : List Char} :
    ∀ {s r : List Char}, afterLast pat s = some r → pat ++ r <:+ s := by
  intro s
  induction s with
  | nil => intro r h; exact absurd h (by simp [afterLast])
  | cons c rest ih =>
    intro r h
    rcases afterLast_cons_cases pat c rest with ⟨r0, h0, hc⟩ | ⟨h0, hsw, hc⟩ | ⟨h0, hsw, hc⟩
    · rw [hc] at h
      injection h with h
      subst h
      exact (ih h0).trans (List.suffix_cons c rest)
    · rw [hc] at h
      injection h with h
      subst h
      obtain ⟨t, ht⟩ := startsWith_iff.mp hsw
      have hdrop : (c :: rest).drop pat.length = t := by
        rw [← ht, List.drop_left]
      rw [hdrop]
      exact ⟨[], by rw [List.nil_append, ht]⟩
    · rw [hc] at h
      exact Option.noConfusion h

theorem afterLast_minimal {pat : List Char} (hp : pat ≠ []) :
    ∀ {s r : List Char}, afterLast pat s = some r →
      ∀ r', pat ++ r' <:+ s → r.length ≤ r'.length := by
  intro s
  induction s with
  | nil => intro r h; exact absurd h (by simp [afterLast])
  | cons c rest ih =>
    intro r h r' hr'
    have hplen : 0 < pat.length := List.length_pos.mpr hp
    rcases afterLast_cons_cases pat c rest with ⟨r0, h0, hc⟩ | ⟨h0, hsw, hc⟩ | ⟨h0, hsw, hc⟩
    · rw [hc] at h
      injection h with h
      subst h
      rcases List.suffix_cons_iff.mp hr' with he | hs
      · have hlen := congrArg List.length he
        simp only [List.length_append, List.length_cons] at hlen
        have hsuf := List.IsSuffix.length_le (afterLast_suffix h0)
        simp only [List.length_append] at hsuf
        omega
      · exact ih h0 r' hs
    · rw [hc] at h
      injection h with h
      subst h
      rcases List.suffix_cons_iff.mp hr' with he | hs
      · have hlen := congrArg List.length he
        simp only [List.length_append, List.length_cons] at hlen
        have hdl : ((c :: rest).drop pat.length).length = (c :: rest).length - pat.length := by
          rw [List.length_drop]
        simp only [List.length_cons] at hdl
        omega
      · obtain ⟨u, hu⟩ := hs
        have : pat <:+: rest := ⟨u, r', by rw [List.append_assoc]; exact hu⟩
        exact absurd this ((afterLast_eq_none_iff hp).mp h0)
    · rw [hc] at h
      exact Option.noConfusion h

theorem git_commit_true_ok {text msg : List Char}
    (h : generate_random_commit_message text = Except.ok msg) (today : List Char) :
    git_commit true text today =
      ([GitCmd.add ("number.txt").toList, GitCmd.commit msg], none) := by
  unfold git_commit
  rw [if_pos rfl, h]
  rfl

theorem git_commit_true_error {text e : List Char}
    (h : generate_random_commit_message text = Except.error e) (today : List Char) :
    git_commit true text today = ([GitCmd.add ("number.txt").toList], some e) := by
  unfold git_commit
  rw [if_pos rfl, h]

/-- C8: with the LLM path selected, the commit message is the stripped
text after the last `"- "` in the generated text; without that marker the
generation raises and no date-stamped fallback is used. -/
theorem c8_generate_after_last_bullet (text : List Char) :
    (¬ bulletMarker <:+: text →
      generate_random_commit_message text =
        Except.error (("Unexpected generated text ").toList ++ text) ∧
      ∀ today, git_commit true text today =
        ([GitCmd.add ("number.txt").toList],
          some (("Unexpected generated text ").toList ++ text))) ∧
    (bulletMarker <:+: text →
      ∃ r, afterLast bulletMarker text = some r ∧
        generate_random_commit_message text = Except.ok (stripChars r) ∧
        bulletMarker ++ r <:+ text ∧
        (∀ r', bulletMarker ++ r' <:+ text → r.length ≤ r'.length) ∧
        ∀ today, git_commit true text today =
          ([GitCmd.add ("number.txt").toList, GitCmd.commit (stripChars r)], none)) := by
  have hp : bulletMarker ≠ [] := by decide
  constructor
  · intro hni
    have hnone : afterLast bulletMarker text = none := (afterLast_eq_none_iff hp).mpr hni
    have hgen : generate_random_commit_message text =
        Except.error (("Unexpected generated text ").toList ++ text) := by
      unfold generate_random_commit_message
      rw [hnone]
    exact ⟨hgen, fun today => git_commit_true_error hgen today⟩
  · intro hinf
    have hsome : afterLast bulletMarker text ≠ none := fun hc =>
      ((afterLast_eq_none_iff hp).mp hc) hinf
    obtain ⟨r, h⟩ := Option.ne_none_iff_exists'.mp hsome
    have hgen : generate_random_commit_message text = Except.ok (stripChars r) := by
      unfold generate_random_commit_message
      rw [h]
    exact ⟨r, h, hgen, afterLast_suffix h, afterLast_minimal hp h,
      fun today => git_commit_true_ok hgen today⟩

/-- Witness for C8 at the generated texts `"a- b"` (marker present) and
`"ab"` (marker absent). -/
theorem c8_generate_after_last_bullet_witness :
    (∃ r, afterLast bulletMarker ['a', '-', ' ', 'b'] = some r ∧
      generate_random_commit_message ['a', '-', ' ', 'b'] = Except.ok (stripChars r) ∧
      bulletMarker ++ r <:+ ['a', '-', ' ', 'b'] ∧
      (∀ r', bulletMarker ++ r' <:+ ['a', '-', ' ', 'b'] → r.length ≤ r'.length) ∧
      ∀ today, git_commit true ['a', '-', ' ', 'b'] today =
        ([GitCmd.add ("number.txt").toList, GitCmd.commit (stripChars r)], none)) ∧
    (generate_random_commit_message ['a', 'b'] =
        Except.error (("Unexpected generated text ").toList ++ ['a', 'b']) ∧
      ∀ today, git_commit true ['a', 'b'] today =
        ([GitCmd.add ("number.txt").toList],
          some (("Unexpected generated text ").toList ++ ['a', 'b']))) :=
  ⟨(c8_generate_after_last_bullet ['a', '-', ' ', 'b']).2 (by decide),
    (c8_generate_after_last_bullet ['a', 'b']).1 (by decide)⟩

/-- C9: with the environment toggle unset, `git_commit` stages
`number.txt` and commits with exactly `"Update number: "` followed by
today's date in `YYYY-MM-DD` form. -/
theorem c9_git_commit_date_message (genText : List Char) (y m d : Nat) :
    git_commit false genText (dateYMD y m d) =
      ([GitCmd.add ("number.txt").toList,
        GitCmd.commit (("Update number: ").toList ++ dateYMD y m d)], none) := rfl

/- Cron rescheduling: `update_cron_random_times`.  The crontab is the
list of its lines; the marker file is the optional contents of
`cron_schedule_date.txt`; the random draws are explicit parameters (the
uniform value feeding `random.choices` and the stream of
`(random.choice(hours), random.randint(0, 59))` pairs). -/

/-- The ownership tag appended to every self-generated crontab entry. -/
def randomMarker : List Char := ("# [RANDOM]").toList

/-- Python `"pat" in ln`: substring containment. -/
def containsSeq (pat s : List Char) : Bool := decide (pat <:+: s)

/-- The path constants baked into each generated crontab line. -/
structure CronConfig where
  scriptDir : List Char
  scriptPath : List Char
  logFile : List Char
deriving DecidableEq

/-- The state touched by the rescheduler: marker file and crontab. -/
structure CronState where
  marker : Option (List Char)
  crontab : List (List Char)
deriving DecidableEq

/-- The once-per-day guard:
`os.path.exists(m) and open(m).read().strip() == today_str`. -/
def markerMatches (today : List Char) : Option (List Char) → Bool
  | none => false
  | some s => decide (stripChars s = today)

/-- Weighted probabilities for selecting 0-9 runs. -/
def PROB_WEIGHTS : List Nat := [13, 15, 17, 4, 11, 9, 8, 6, 5, 12]

/-- `random.choices(range(len(ws)), weights=ws)` as cumulative-weight
inversion of a uniform value `r` below the total weight. -/
def weightedIndex : List Nat → Nat → Nat
  | [], _ => 0
  | w :: ws, r => if r < w then 0 else weightedIndex ws (r - w) + 1

theorem weightedIndex_cons {w : Nat} {ws : List Nat} {r : Nat} :
    weightedIndex (w :: ws) r =
      if r < w then 0 else weightedIndex ws (r - w) + 1 := rfl

/-- `hours = list(range(0, 2)) + list(range(6, 24))`. -/
def cronHours : List Nat := List.range 2 ++ List.range' 6 18

/-- The `while len(times) < run_count` rejection-sampling loop, consuming
an explicit stream of draws; `none` models exhausting the stream, which
stands for the loop never finishing. -/
def drawTimesLoop (run_count : Nat) :
    List (Nat × Nat) → List (Nat × Nat) → Option (List (Nat × Nat))
  | [], acc => if run_count ≤ acc.length then some acc else none
  | d :: rest, acc =>
    if run_count ≤ acc.length then some acc
    else drawTimesLoop run_count rest (if d ∈ acc then acc else d :: acc)

theorem drawTimesLoop_nil {k : Nat} {acc : List (Nat × Nat)} :
    drawTimesLoop k [] acc = if k ≤ acc.length then some acc else none := rfl

theorem drawTimesLoop_cons {k : Nat} {d : Nat × Nat} {rest acc : List (Nat × Nat)} :
    drawTimesLoop k (d :: rest) acc =
      if k ≤ acc.length then some acc
      else drawTimesLoop k rest (if d ∈ acc then acc else d :: acc) := rfl

/-- Python tuple ordering on `(hour, minute)` pairs, used by `sorted`. -/
def timeLe (a b : Nat × Nat) : Prop := a.1 < b.1 ∨ (a.1 = b.1 ∧ a.2 ≤ b.2)

/-- Strict ascending order on `(hour, minute)` pairs. -/
def timeLt (a b : Nat × Nat) : Prop := a.1 < b.1 ∨ (a.1 = b.1 ∧ a.2 < b.2)

instance : DecidableRel timeLe := fun a b => by unfold timeLe; exact inferInstance

instance : IsTotal (Nat × Nat) timeLe := ⟨fun a b => by unfold timeLe; omega⟩

instance : IsTrans (Nat × Nat) timeLe := ⟨fun a b c => by unfold timeLe; omega⟩

/-- One generated crontab entry:
`f"{m} {h} * * * cd {script_dir} && /usr/bin/env python3 {script_path} >> {log_file} 2>&1  # [RANDOM]\n"`. -/
def cronLine (cfg : CronConfig) (t : Nat × Nat) : List Char :=
  natToChars t.2 ++ [' '] ++ natToChars t.1 ++ (" * * * cd ").toList ++
    cfg.scriptDir ++ (" && /usr/bin/env python3 ").toList ++ cfg.scriptPath ++
    (" >> ").toList ++ cfg.logFile ++ (" 2>&1  ").toList ++ randomMarker ++ ['\n']

/-- `update_cron_random_times`: skip when already scheduled today; else
drop old `# [RANDOM]` lines, draw `run_count` distinct `(hour, minute)`
pairs, append the generated entries sorted ascending, install the table
and record today's date in the marker file. -/
def update_cron_random_times (cfg : CronConfig) (today : List Char) (run_count : Nat)
    (draws : List (Nat × Nat)) (st : CronState) : Option CronState :=
  if markerMatches today st.marker then some st
  else
    match drawTimesLoop run_count draws [] with
    | none => none
    | some times =>
      some ⟨some today,
        st.crontab.filter (fun ln => ! containsSeq randomMarker ln) ++
          (List.insertionSort timeLe times).map (cronLine cfg)⟩

/- Loop facts. -/

theorem drawTimesLoop_mem {k : Nat} :
    ∀ {draws acc ts : List (Nat × Nat)}, drawTimesLoop k draws acc = some ts →
      ∀ t ∈ ts, t ∈ acc ∨ t ∈ draws := by
  intro draws
  induction draws with
  | nil =>
    intro acc ts h t ht
    rw [drawTimesLoop_nil] at h
    by_cases hk : k ≤ acc.length
    · rw [if_pos hk] at h
      injection h with h
      subst h
      exact Or.inl ht
    · rw [if_neg hk] at h
      exact Option.noConfusion h
  | cons d rest ih =>
    intro acc ts h t ht
    rw [drawTimesLoop_cons] at h
    by_cases hk : k ≤ acc.length
    · rw [if_pos hk] at h
      injection h with h
      subst h
      exact Or.inl ht
    · rw [if_neg hk] at h
      by_cases hd : d ∈ acc
      · rw [if_pos hd] at h
        rcases ih h t ht with hacc | hrest
        · exact Or.inl hacc
        · exact Or.inr (List.mem_cons.mpr (Or.inr hrest))
      · rw [if_neg hd] at h
        rcases ih h t ht with hacc | hrest
        · rcases List.mem_cons.mp hacc with rfl | hacc2
          · exact Or.inr (List.mem_cons.mpr (Or.inl rfl))
          · exact Or.inl hacc2
        · exact Or.inr (List.mem_cons.mpr (Or.inr hrest))

theorem drawTimesLoop_nodup {k : Nat} :
    ∀ {draws acc ts : List (Nat × Nat)}, drawTimesLoop k draws acc = some ts →
      acc.Nodup → ts.Nodup := by
  intro draws
  induction draws with
  | nil =>
    intro acc ts h hnd
    rw [drawTimesLoop_nil] at h
    by_cases hk : k ≤ acc.length
    · rw [if_pos hk] at h
      injection h with h
      subst h
      exact hnd
    · rw [if_neg hk] at h
      exact Option.noConfusion h
  | cons d rest ih =>
    intro acc ts h hnd
    rw [drawTimesLoop_cons] at h
    by_cases hk : k ≤ acc.length
    · rw [if_pos hk] at h
      injection h with h
      subst h
      exact hnd
    · rw [if_neg hk] at h
      by_cases hd : d ∈ acc
      · rw [if_pos hd] at h
        exact ih h hnd
      · rw [if_neg hd] at h
        exact ih h (List.nodup_cons.mpr ⟨hd, hnd⟩)

theorem drawTimesLoop_length {k : Nat} :
    ∀ {draws acc ts : List (Nat × Nat)}, drawTimesLoop k draws acc = some ts →
      acc.length ≤ k → ts.length = k := by
  intro draws
  induction draws with
  | nil =>
    intro acc ts h hle
    rw [drawTimesLoop_nil] at h
    by_cases hk : k ≤ acc.length
    · rw [if_pos hk] at h
      injection h with h
      subst h
      omega
    · rw [if_neg hk] at h
      exact Option.noConfusion h
  | cons d rest ih =>
    intro acc ts h hle
    rw [drawTimesLoop_cons] at h
    by_cases hk : k ≤ acc.length
    · rw [if_pos hk] at h
      injection h with h
      subst h
      omega
    · rw [if_neg hk] at h
      by_cases hd : d ∈ acc
      · rw [if_pos hd] at h
        exact ih h hle
      · rw [if_neg hd] at h
        exact ih h (by simp only [List.length_cons]; omega)

theorem drawTimesLoop_total {k : Nat} :
    ∀ (draws acc : List (Nat × Nat)), acc.Nodup →
      k ≤ (draws ++ acc).dedup.length →
      ∃ ts, drawTimesLoop k draws acc = some ts := by
  intro draws
  induction draws with
  | nil =>
    intro acc hnd hk
    rw [List.nil_append, List.Nodup.dedup hnd] at hk
    rw [drawTimesLoop_nil, if_pos hk]
    exact ⟨acc, rfl⟩
  | cons d rest ih =>
    intro acc hnd hk
    by_cases hkacc : k ≤ acc.length
    · rw [drawTimesLoop_cons, if_pos hkacc]
      exact ⟨acc, rfl⟩
    · rw [drawTimesLoop_cons, if_neg hkacc]
      have hcons : ((d :: rest) ++ acc) = d :: (rest ++ acc) := rfl
      by_cases hd : d ∈ acc
      · rw [if_pos hd]
        apply ih acc hnd
        rw [hcons, List.dedup_cons_of_mem (List.mem_append.mpr (Or.inr hd))] at hk
        exact hk
      · rw [if_neg hd]
        apply ih (d :: acc) (List.nodup_cons.mpr ⟨hd, hnd⟩)
        have hperm : List.Perm (rest ++ d :: acc) (d :: (rest ++ acc)) := List.perm_middle
        have hlen := (hperm.dedup).length_eq
        rw [hcons] at hk
        omega

/- Facts about `update_cron_random_times`. -/

theorem update_cron_skip {cfg : CronConfig} {today : List Char} {k : Nat}
    {draws : List (Nat × Nat)} {st : CronState}
    (h : markerMatches today st.marker = true) :
    update_cron_random_times cfg today k draws st = some st := by
  unfold update_cron_random_times
  rw [if_pos h]

theorem update_cron_install {cfg : CronConfig} {today : List Char} {k : Nat}
    {draws times : List (Nat × Nat)} {st : CronState}
    (hm : markerMatches today st.marker = false)
    (hl : drawTimesLoop k draws [] = some times) :
    update_cron_random_times cfg today k draws st =
      some ⟨some today,
        st.crontab.filter (fun ln => ! containsSeq randomMarker ln) ++
          (List.insertionSort timeLe times).map (cronLine cfg)⟩ := by
  unfold update_cron_random_times
  rw [if_neg (by rw [hm]; exact Bool.false_ne_true), hl]

theorem update_cron_cases {cfg : CronConfig} {today : List Char} {k : Nat}
    {draws : List (Nat × Nat)} {st st' : CronState}
    (h : update_cron_random_times cfg today k draws st = some st') :
    (markerMatches today st.marker = true ∧ st' = st) ∨
    (markerMatches today st.marker = false ∧ ∃ times,
      drawTimesLoop k draws [] = some times ∧
      st' = ⟨some today,
        st.crontab.filter (fun ln => ! containsSeq randomMarker ln) ++
          (List.insertionSort timeLe times).map (cronLine cfg)⟩) := by
  by_cases hm : markerMatches today st.marker = true
  · left
    refine ⟨hm, ?_⟩
    rw [update_cron_skip hm] at h
    injection h with h
    exact h.symm
  · right
    have hm' : markerMatches today st.marker = false := by
      cases hx : markerMatches today st.marker
      · rfl
      · exact absurd hx hm
    refine ⟨hm', ?_⟩
    cases hl : drawTimesLoop k draws [] with
    | none =>
      unfold update_cron_random_times at h
      rw [if_neg hm, hl] at h
      exact Option.noConfusion h
    | some times =>
      rw [update_cron_install hm' hl] at h
      injection h with h
      exact ⟨times, rfl, h.symm⟩

theorem mem_cronHours {h : Nat} : h ∈ cronHours ↔ (h ≤ 1 ∨ (6 ≤ h ∧ h ≤ 23)) := by
  rw [cronHours, List.mem_append, List.mem_range, List.mem_range']
  constructor
  · rintro (h2 | ⟨i, hi, rfl⟩) <;> omega
  · intro hh
    by_cases h2 : h < 2
    · exact Or.inl h2
    · exact Or.inr ⟨h - 6, by omega, by omega⟩

theorem containsSeq_cronLine (cfg : CronConfig) (t : Nat × Nat) :
    containsSeq randomMarker (cronLine cfg t) = true := by
  unfold containsSeq
  apply decide_eq_true
  exact ⟨natToChars t.2 ++ [' '] ++ natToChars t.1 ++ (" * * * cd ").toList ++
    cfg.scriptDir ++ (" && /usr/bin/env python3 ").toList ++ cfg.scriptPath ++
    (" >> ").toList ++ cfg.logFile ++ (" 2>&1  ").toList, ['\n'],
    by simp [cronLine, List.append_assoc]⟩

theorem filter_of_filter_not (p : List Char → Bool) (l : List (List Char)) :
    (l.filter (fun x => ! p x)).filter p = [] := by
  induction l with
  | nil => rfl
  | cons a l ih =>
    cases h : p a
    · rw [List.filter_cons_of_pos (by rw [h]; rfl), List.filter_cons_of_neg (by rw [h]; simp)]
      exact ih
    · rw [List.filter_cons_of_neg (by rw [h]; simp)]
      exact ih

theorem weightedIndex_lt_length :
    ∀ (ws : List Nat) (r : Nat), r < ws.sum → weightedIndex ws r < ws.length := by
  intro ws
  induction ws with
  | nil => intro r hr; simp at hr
  | cons w ws ih =>
    intro r hr
    rw [weightedIndex_cons]
    by_cases h : r < w
    · rw [if_pos h]; simp
    · rw [if_neg h]
      rw [List.sum_cons] at hr
      have := ih (r - w) (by omega)
      simp only [List.length_cons]
      omega

/-- C4: for every `run_count` the weighted draw can produce (a uniform
value below the total weight inverted through the cumulative weights),
`run_count ≤ 9 < 1200 = 20 allowed hours × 60 minutes`, and the
rejection-sampling loop reaches a set of exactly `run_count` members on
any draw stream offering at least `run_count` distinct pairs — streams
the candidate space is large enough to supply. -/
theorem c4_rejection_sampling_terminates (r : Nat) (hr : r < PROB_WEIGHTS.sum) :
    weightedIndex PROB_WEIGHTS r ≤ 9 ∧
    cronHours.length * 60 = 1200 ∧
    (∀ draws : List (Nat × Nat),
      weightedIndex PROB_WEIGHTS r ≤ draws.dedup.length →
      ∃ ts, drawTimesLoop (weightedIndex PROB_WEIGHTS r) draws [] = some ts ∧
        ts.length = weightedIndex PROB_WEIGHTS r) ∧
    (∃ draws : List (Nat × Nat),
      (∀ t ∈ draws, t.1 ∈ cronHours ∧ t.2 ≤ 59) ∧
      ∃ ts, drawTimesLoop (weightedIndex PROB_WEIGHTS r) draws [] = some ts ∧
        ts.length = weightedIndex PROB_WEIGHTS r) := by
  have hlen : weightedIndex PROB_WEIGHTS r < 10 := by
    have := weightedIndex_lt_length PROB_WEIGHTS r hr
    simpa [PROB_WEIGHTS] using this
  have hall : ∀ draws : List (Nat × Nat),
      weightedIndex PROB_WEIGHTS r ≤ draws.dedup.length →
      ∃ ts, drawTimesLoop (weightedIndex PROB_WEIGHTS r) draws [] = some ts ∧
        ts.length = weightedIndex PROB_WEIGHTS r := by
    intro draws hd
    obtain ⟨ts, hts⟩ := @drawTimesLoop_total (weightedIndex PROB_WEIGHTS r) draws []
      List.nodup_nil (by rw [List.append_nil]; exact hd)
    exact ⟨ts, hts, drawTimesLoop_length hts (Nat.zero_le _)⟩
  refine ⟨by omega, rfl, hall, ?_⟩
  refine ⟨(List.range (weightedIndex PROB_WEIGHTS r)).map (fun i => (0, i)), ?_, ?_⟩
  · intro t ht
    obtain ⟨i, hi, rfl⟩ := List.mem_map.mp ht
    rw [List.mem_range] at hi
    exact ⟨mem_cronHours.mpr (Or.inl (by omega)), by simp; omega⟩
  · apply hall
    have hnd : ((List.range (weightedIndex PROB_WEIGHTS r)).map
        (fun i => (0, i)) : List (Nat × Nat)).Nodup :=
      (List.nodup_range _).map (fun a b hab => by
        injection hab)
    rw [List.Nodup.dedup hnd, List.length_map, List.length_range]

/-- Witness for C4 at the uniform value 0 (which draws `run_count = 0`)
and, separately, a concrete positive count: the loop with `run_count = 2`
on the candidate stream `[(0,0), (0,1)]` yields exactly those two pairs. -/
theorem c4_rejection_sampling_terminates_witness :
    (weightedIndex PROB_WEIGHTS 0 ≤ 9 ∧
      cronHours.length * 60 = 1200 ∧
      (∀ draws : List (Nat × Nat),
        weightedIndex PROB_WEIGHTS 0 ≤ draws.dedup.length →
        ∃ ts, drawTimesLoop (weightedIndex PROB_WEIGHTS 0) draws [] = some ts ∧
          ts.length = weightedIndex PROB_WEIGHTS 0) ∧
      (∃ draws : List (Nat × Nat),
        (∀ t ∈ draws, t.1 ∈ cronHours ∧ t.2 ≤ 59) ∧
        ∃ ts, drawTimesLoop (weightedIndex PROB_WEIGHTS 0) draws [] = some ts ∧
          ts.length = weightedIndex PROB_WEIGHTS 0)) ∧
    drawTimesLoop 2 [(0, 0), (0, 1)] [] = some [(0, 1), (0, 0)] :=
  ⟨c4_rejection_sampling_terminates 0 (by decide), by decide⟩

/-- C3: if the marker file exists and its stripped contents equal today's
date string, `update_cron_random_times` returns without touching the
state; consequently any invocation following a successful one the same
day is a no-op. -/
theorem c3_marker_guard_idempotent (cfg : CronConfig) (today : List Char)
    (k k' : Nat) (draws draws' : List (Nat × Nat)) (st st' : CronState)
    (htoday : stripChars today = today) :
    (markerMatches today st.marker = true →
      update_cron_random_times cfg today k draws st = some st) ∧
    (update_cron_random_times cfg today k draws st = some st' →
      update_cron_random_times cfg today k' draws' st' = some st') := by
  constructor
  · exact update_cron_skip
  · intro h
    rcases update_cron_cases h with ⟨hm, rfl⟩ | ⟨hm, times, hl, rfl⟩
    · exact update_cron_skip hm
    · apply update_cron_skip
      show decide (stripChars today = today) = true
      rw [htoday]
      exact decide_eq_true rfl

/-- Witness for C3: a state whose marker holds `"d"` is left unchanged,
and running from a blank state then running again is a no-op. -/
theorem c3_marker_guard_idempotent_witness :
    (update_cron_random_times ⟨[], [], []⟩ ['d'] 0 [] ⟨some ['d'], []⟩ =
      some ⟨some ['d'], []⟩) ∧
    (update_cron_random_times ⟨[], [], []⟩ ['d'] 3 [] ⟨some ['d'], []⟩ =
      some ⟨some ['d'], []⟩) :=
  ⟨(c3_marker_guard_idempotent ⟨[], [], []⟩ ['d'] 0 0 [] [] ⟨some ['d'], []⟩
      ⟨some ['d'], []⟩ (by decide)).1 (by decide),
    (c3_marker_guard_idempotent ⟨[], [], []⟩ ['d'] 0 3 [] [] ⟨none, []⟩
      ⟨some ['d'], []⟩ (by decide)).2 (by decide)⟩

/-- C2: on an installing run, the new crontab is exactly the foreign
lines of the old one — every line not containing `# [RANDOM]`, byte for
byte, in original order — followed by the newly generated self-owned
lines, all of which carry the marker. -/
theorem c2_foreign_lines_preserved (cfg : CronConfig) (today : List Char)
    (k : Nat) (draws : List (Nat × Nat)) (st st' : CronState)
    (hm : markerMatches today st.marker = false)
    (h : update_cron_random_times cfg today k draws st = some st') :
    ∃ newLines : List (List Char),
      (∀ l ∈ newLines, containsSeq randomMarker l = true) ∧
      st'.crontab =
        st.crontab.filter (fun ln => ! containsSeq randomMarker ln) ++ newLines := by
  rcases update_cron_cases h with ⟨hm', _⟩ | ⟨_, times, hl, rfl⟩
  · rw [hm] at hm'
    exact Bool.noConfusion hm'
  · refine ⟨(List.insertionSort timeLe times).map (cronLine cfg), ?_, rfl⟩
    intro l hlmem
    obtain ⟨t, _, rfl⟩ := List.mem_map.mp hlmem
    exact containsSeq_cronLine cfg t

/-- Witness for C2: a table with one foreign and one stale random line is
rebuilt as the foreign line followed by the fresh tagged line. -/
theorem c2_foreign_lines_preserved_witness :
    ∃ newLines : List (List Char),
      (∀ l ∈ newLines, containsSeq randomMarker l = true) ∧
      (CronState.mk (some ['d'])
          ([['x'], ('o' :: randomMarker)].filter
            (fun ln => ! containsSeq randomMarker ln) ++
            (List.insertionSort timeLe [(7, 30)]).map (cronLine ⟨['p'], ['q'], ['g']⟩))).crontab =
        (CronState.mk none [['x'], ('o' :: randomMarker)]).crontab.filter
          (fun ln => ! containsSeq randomMarker ln) ++ newLines :=
  c2_foreign_lines_preserved ⟨['p'], ['q'], ['g']⟩ ['d'] 1 [(7, 30)]
    ⟨none, [['x'], ('o' :: randomMarker)]⟩ _ (by decide)
    (update_cron_install (by decide) (by decide))

/-- C1: on an installing run with `run_count = k` the installed table
holds exactly `k` marker-tagged entries, one per pair of a set of `k`
pairwise-distinct `(hour, minute)` pairs with minutes in `[0, 59]` and
hours in `{0, 1} ∪ {6, ..., 23}`, laid out in strictly ascending
`(hour, minute)` order. -/
theorem c1_installed_random_entries (cfg : CronConfig) (today : List Char)
    (k : Nat) (draws : List (Nat × Nat)) (st st' : CronState)
    (hvalid : ∀ t ∈ draws, t.1 ∈ cronHours ∧ t.2 ≤ 59)
    (hm : markerMatches today st.marker = false)
    (h : update_cron_random_times cfg today k draws st = some st') :
    ∃ ts : List (Nat × Nat),
      st'.crontab.filter (fun ln => containsSeq randomMarker ln) =
        ts.map (cronLine cfg) ∧
      ts.length = k ∧
      ts.Nodup ∧
      (∀ t ∈ ts, t.2 ≤ 59 ∧ (t.1 ≤ 1 ∨ (6 ≤ t.1 ∧ t.1 ≤ 23))) ∧
      ts.Pairwise timeLt := by
  rcases update_cron_cases h with ⟨hm', _⟩ | ⟨_, times, hl, rfl⟩
  · rw [hm] at hm'
    exact Bool.noConfusion hm'
  · refine ⟨List.insertionSort timeLe times, ?_, ?_, ?_, ?_, ?_⟩
    · show (st.crontab.filter (fun ln => ! containsSeq randomMarker ln) ++
          (List.insertionSort timeLe times).map (cronLine cfg)).filter
            (fun ln => containsSeq randomMarker ln) = _
      rw [List.filter_append, filter_of_filter_not, List.nil_append,
        List.filter_eq_self.mpr]
      intro a ha
      obtain ⟨t, _, rfl⟩ := List.mem_map.mp ha
      exact containsSeq_cronLine cfg t
    · rw [(List.perm_insertionSort timeLe times).length_eq]
      exact drawTimesLoop_length hl (Nat.zero_le _)
    · exact ((List.perm_insertionSort timeLe times).nodup_iff).mpr
        (drawTimesLoop_nodup hl List.nodup_nil)
    · intro t ht
      rw [List.mem_insertionSort] at ht
      rcases drawTimesLoop_mem hl t ht with hnil | hdr
      · exact absurd hnil (List.not_mem_nil t)
      · obtain ⟨hh, hm59⟩ := hvalid t hdr
        exact ⟨hm59, mem_cronHours.mp hh⟩
    · have hsorted : List.Pairwise timeLe (List.insertionSort timeLe times) :=
        List.sorted_insertionSort timeLe times
      have hnd : (List.insertionSort timeLe times).Nodup :=
        ((List.perm_insertionSort timeLe times).nodup_iff).mpr
          (drawTimesLoop_nodup hl List.nodup_nil)
      refine (hsorted.and hnd).imp ?_
      intro a b hab
      obtain ⟨hle, hne⟩ := hab
      unfold timeLe at hle
      unfold timeLt
      rcases a with ⟨a1, a2⟩
      rcases b with ⟨b1, b2⟩
      by_cases he : a1 = b1
      · right
        refine ⟨he, ?_⟩
        have hne2 : ¬ a2 = b2 := fun hc => hne (by rw [he, hc])
        omega
      · left
        omega

/-- Witness for C1 at `run_count = 2` with draw stream
`[(7, 30), (7, 30), (0, 5)]` on a table holding one foreign line. -/
theorem c1_installed_random_entries_witness :
    ∃ ts : List (Nat × Nat),
      (CronState.mk (some ['d'])
          ([['x']].filter (fun ln => ! containsSeq randomMarker ln) ++
            (List.insertionSort timeLe [(0, 5), (7, 30)]).map
              (cronLine ⟨['p'], ['q'], ['g']⟩))).crontab.filter
        (fun ln => containsSeq randomMarker ln) =
        ts.map (cronLine ⟨['p'], ['q'], ['g']⟩) ∧
      ts.length = 2 ∧
      ts.Nodup ∧
      (∀ t ∈ ts, t.2 ≤ 59 ∧ (t.1 ≤ 1 ∨ (6 ≤ t.1 ∧ t.1 ≤ 23))) ∧
      ts.Pairwise timeLt :=
  c1_installed_random_entries ⟨['p'], ['q'], ['g']⟩ ['d'] 2
    [(7, 30), (7, 30), (0, 5)] ⟨none, [['x']]⟩ _ (by decide) (by decide)
    (update_cron_install (by decide) (by decide))

end UpdateNumber
